import Mathlib

/-!
Verification of the corpus-scheduling core (`src/evm/scheduler.rs`) of the
ityfuzz repository: branch-coverage bookkeeping, ABI-based power scheduling,
and corpus selection.

The Rust source is shallowly embedded below.  Hash maps and hash sets are
modelled as association lists and duplicate-free lists; `usize` counters are
modelled as `Nat`; the `f64` power score is modelled over `ℚ` (all values
involved are small integer multiples of 16, on which `f64` arithmetic is
exact); a Rust `panic!`/`unwrap` failure is modelled as `Option.none`.
-/

/-- Model of `EVMAddress` (20-byte address), as a natural number. -/
abbrev EVMAddress := Nat

/-- Model of libafl's `CorpusId`. -/
abbrev CorpusId := Nat

/-- A branch identity: (contract address, program counter). -/
abbrev Branch := EVMAddress × Nat

/-- Association-list lookup, modelling `HashMap::get`. -/
def mapGet {K V : Type} [DecidableEq K] : List (K × V) → K → Option V
  | [], _ => none
  | (k', v) :: rest, k => if k' = k then some v else mapGet rest k

/-- Association-list insert/replace, modelling `HashMap::insert` (and
`entry(..).or_insert`/`and_modify` result states). -/
def mapInsert {K V : Type} [DecidableEq K] : List (K × V) → K → V → List (K × V)
  | [], k, v => [(k, v)]
  | (k', v') :: rest, k, v =>
    if k' = k then (k, v) :: rest else (k', v') :: mapInsert rest k v

/-- Association-list removal, modelling `HashMap::remove`. -/
def mapRemove {K V : Type} [DecidableEq K] : List (K × V) → K → List (K × V)
  | [], _ => []
  | (k', v') :: rest, k =>
    if k' = k then mapRemove rest k else (k', v') :: mapRemove rest k

/-- The keys of an association list are pairwise distinct. -/
def NodupKeys {K V : Type} (l : List (K × V)) : Prop :=
  (l.map Prod.fst).Nodup

/-- Duplicate-free list insertion, modelling `HashSet::insert`. -/
def setInsert {α : Type} [DecidableEq α] (x : α) (s : List α) : List α :=
  if x ∈ s then s else x :: s

/-- `BranchCoveredStatus` from `scheduler.rs`: whether a branch has been seen
taken (`True`), not taken (`False`), or both (`Both`). -/
inductive BranchCoveredStatus : Type
  | True
  | False
  | Both
deriving DecidableEq

/-- `BranchCoveredStatus::merge`: fold one observed direction into the current
status, returning the new status and the became-fully-covered flag. -/
def BranchCoveredStatus.merge : BranchCoveredStatus → Bool → BranchCoveredStatus × Bool
  | .Both, _ => (.Both, false)
  | .True, branch_status => if branch_status then (.True, false) else (.Both, true)
  | .False, branch_status => if branch_status then (.Both, true) else (.False, false)

/-- `BranchCoveredStatus::from`: initial status for a first observation. -/
def BranchCoveredStatus.fromBool (branch_status : Bool) : BranchCoveredStatus :=
  if branch_status then .True else .False

/-- `UncoveredBranchesMetadata` from `scheduler.rs`: the global coverage
ledger. -/
structure UncoveredBranchesMetadata : Type where
  branch_to_testcases : List (Branch × List CorpusId)
  testcase_to_uncovered_branches : List (CorpusId × Nat)
  branch_status : List (Branch × BranchCoveredStatus)
deriving DecidableEq

/-- `UncoveredBranchesMetadata::new`: the empty ledger. -/
def UncoveredBranchesMetadata.new : UncoveredBranchesMetadata :=
  { branch_to_testcases := []
    testcase_to_uncovered_branches := []
    branch_status := [] }

/-- `entry(tc_id).and_modify(|e| *e -= 1).or_insert(0)` on
`testcase_to_uncovered_branches` (scheduler.rs lines 259-262).  The `usize`
decrement is modelled by truncated `Nat` subtraction; the no-underflow theorem
below shows the value is at least 1 whenever this runs from a reachable state. -/
def decOrInsert (cs : List (CorpusId × Nat)) (tc : CorpusId) : List (CorpusId × Nat) :=
  match mapGet cs tc with
  | some n => mapInsert cs tc (n - 1)
  | none => mapInsert cs tc 0

/-- The `for_each` loop of scheduler.rs lines 254-263: decrement every credited
testcase except the currently admitted one. -/
def foldDec (idx : CorpusId) (s : List CorpusId) (cs : List (CorpusId × Nat)) :
    List (CorpusId × Nat) :=
  s.foldl (fun acc tc => if tc = idx then acc else decOrInsert acc tc) cs

/-- `entry((addr, pc)).or_default().insert(idx)` on `branch_to_testcases`
(scheduler.rs lines 267 and 278). -/
def insertIntoSet (l : List (Branch × List CorpusId)) (b : Branch) (idx : CorpusId) :
    List (Branch × List CorpusId) :=
  mapInsert l b (setInsert idx ((mapGet l b).getD []))

/-- The body of the per-event `match` in `PowerABIScheduler::on_add`
(scheduler.rs lines 244-282), for one non-duplicate branch event: returns the
updated ledger and the increment (0 or 1) applied to `uncovered_counters`.
The `.expect("branch_to_testcases should contain this branch")` of the source
is modelled by `Option.getD []` (the theorems below only use it on states where
the branch is present). -/
def applyEvent (m : UncoveredBranchesMetadata) (idx : CorpusId) (b : Branch)
    (br : Bool) : UncoveredBranchesMetadata × Nat :=
  match mapGet m.branch_status b with
  | some v =>
    let r := v.merge br
    if r.2 then
      { m with
        testcase_to_uncovered_branches :=
          foldDec idx ((mapGet m.branch_to_testcases b).getD [])
            m.testcase_to_uncovered_branches
        branch_to_testcases := mapRemove m.branch_to_testcases b
        branch_status := mapInsert m.branch_status b r.1 }
      |> fun m' => (m', 0)
    else
      ({ m with
          branch_to_testcases := insertIntoSet m.branch_to_testcases b idx
          branch_status := mapInsert m.branch_status b r.1 }, 1)
  | none =>
    ({ m with
        branch_status := mapInsert m.branch_status b (BranchCoveredStatus.fromBool br)
        branch_to_testcases := insertIntoSet m.branch_to_testcases b idx }, 1)

/-- The event loop of `PowerABIScheduler::on_add` (scheduler.rs lines 238-285):
iterate over the reported branch events, skipping any branch already
`fullfilled` within this call, threading the ledger and the running
`uncovered_counters`. -/
def processEvents (idx : CorpusId) :
    List (EVMAddress × Nat × Bool) → UncoveredBranchesMetadata → Nat → List Branch →
      UncoveredBranchesMetadata × Nat
  | [], m, cnt, _ => (m, cnt)
  | (addr, pc, br) :: rest, m, cnt, fullfilled =>
    if (addr, pc) ∈ fullfilled then processEvents idx rest m cnt fullfilled
    else
      let r := applyEvent m idx (addr, pc) br
      processEvents idx rest r.1 (cnt + r.2) ((addr, pc) :: fullfilled)

/-- The coverage-ledger part of `PowerABIScheduler::on_add` (scheduler.rs lines
230-289): process the execution's branch events, then record the running
counter as the admitted entry's uncovered count. -/
def on_add_branches (m : UncoveredBranchesMetadata) (idx : CorpusId)
    (events : List (EVMAddress × Nat × Bool)) : UncoveredBranchesMetadata :=
  let r := processEvents idx events m 0 []
  { r.1 with
    testcase_to_uncovered_branches :=
      mapInsert r.1.testcase_to_uncovered_branches idx r.2 }

/-- Number of branch credit sets that contain `tc` (proof-side accounting used
by the ledger invariant). -/
def branchCredits (l : List (Branch × List CorpusId)) (tc : CorpusId) : Nat :=
  (l.filter (fun p => tc ∈ p.2)).length

/-- The entry's uncovered count as read by the power score:
`testcase_to_uncovered_branches.get(&idx).unwrap_or(&0)`. -/
def countOf (cs : List (CorpusId × Nat)) (tc : CorpusId) : Nat :=
  (mapGet cs tc).getD 0

/-- A corpus id is fresh for a ledger state: it is credited to no branch and
has no uncovered count yet (each id is admitted exactly once). -/
def FreshId (m : UncoveredBranchesMetadata) (idx : CorpusId) : Prop :=
  (∀ b s, mapGet m.branch_to_testcases b = some s → idx ∉ s) ∧
    mapGet m.testcase_to_uncovered_branches idx = none

/-- Ledger states reachable from the empty ledger by `on_add` admissions of
fresh entry ids, each with an arbitrary list of reported branch events. -/
inductive Reachable : UncoveredBranchesMetadata → Prop
  | init : Reachable UncoveredBranchesMetadata.new
  | step (m : UncoveredBranchesMetadata) (idx : CorpusId)
      (events : List (EVMAddress × Nat × Bool)) :
      Reachable m → FreshId m idx → Reachable (on_add_branches m idx events)

/-- The internal ledger invariant: duplicate-free maps and sets, and every
entry's uncovered count dominates the number of branches it is credited to. -/
def LedgerInv (m : UncoveredBranchesMetadata) : Prop :=
  NodupKeys m.branch_to_testcases ∧
    NodupKeys m.testcase_to_uncovered_branches ∧
    (∀ b s, mapGet m.branch_to_testcases b = some s → s.Nodup) ∧
    (∀ tc, branchCredits m.branch_to_testcases tc ≤
      countOf m.testcase_to_uncovered_branches tc)

/-- Deduplication of a branch-event list by (address, pc), keeping the first
event per branch, as described by the specification of `on_add`
(the `fullfilled` check of scheduler.rs lines 240-242). -/
def dedupByBranchAux :
    List (EVMAddress × Nat × Bool) → List Branch → List (EVMAddress × Nat × Bool)
  | [], _ => []
  | (addr, pc, br) :: rest, seen =>
    if (addr, pc) ∈ seen then dedupByBranchAux rest seen
    else (addr, pc, br) :: dedupByBranchAux rest ((addr, pc) :: seen)

/-- Keep only the first event for each distinct (address, pc) pair. -/
def dedupByBranch (events : List (EVMAddress × Nat × Bool)) :
    List (EVMAddress × Nat × Bool) :=
  dedupByBranchAux events []

/-- Rust `str::contains("()")`: whether the character list has an adjacent
`'('`, `')'` pair. -/
def containsParenPair : List Char → Bool
  | [] => false
  | [_] => false
  | c1 :: c2 :: rest => (c1 = '(' && c2 = ')') || containsParenPair (c2 :: rest)

/-- The function-slug computation of `add_abi_metadata` (scheduler.rs lines
179-189): `"<name>@<amount_args>"` where `amount_args` counts commas in the
whole signature string plus one unless the string contains `"()"`, and `name`
is the prefix before the first `'('`. -/
def slugOfSig (sig : List Char) : List Char :=
  let amount_args := sig.count ',' + (if containsParenPair sig then 0 else 1)
  let name := sig.takeWhile (fun c => c ≠ '(')
  name ++ '@' :: Nat.toDigits 10 amount_args

/-- The ambient globals read by `add_abi_metadata`: the `FUNCTION_SIG`
selector-to-signature table and the `ADDR_CODE_ADDR` proxy-to-code-address
redirection map (both assumed initialized, as the source unwraps them). -/
structure SchedGlobals : Type where
  func_sig : List (Nat × List Char)
  addr_code_addr : List (EVMAddress × EVMAddress)

/-- The fields of `EVMInput` that `on_add`/`add_abi_metadata` consult: the
target contract, the decoded ABI function selector when present
(`get_data_abi`), and whether the input is a step input (`is_step`). -/
structure EVMInputModel : Type where
  contract : EVMAddress
  data_abi : Option Nat
  step : Bool

/-- `PowerABIScheduler::add_abi_metadata` (scheduler.rs lines 160-200),
returning the `lines` weight of the attached `PowerABITestcaseMetadata`;
`none` models the `panic!` on a selector missing from `FUNCTION_SIG`. -/
def add_abi_metadata (sig_to_score : List ((EVMAddress × List Char) × Nat))
    (g : SchedGlobals) (input : EVMInputModel) : Option Nat :=
  match input.data_abi with
  | none => some 1
  | some tc_func =>
    match mapGet g.func_sig tc_func with
    | none => none
    | some tc_func_name =>
      let tc_func_slug := slugOfSig tc_func_name
      let real_addr := (mapGet g.addr_code_addr input.contract).getD input.contract
      some ((mapGet sig_to_score (real_addr, tc_func_slug)).getD 1)

/-- The metadata-attachment part of `PowerABIScheduler::on_add` (scheduler.rs
lines 223-227): step inputs get the default weight 1, others go through
`add_abi_metadata`. -/
def on_add_meta (sig_to_score : List ((EVMAddress × List Char) × Nat))
    (g : SchedGlobals) (input : EVMInputModel) : Option Nat :=
  if input.step then some 1 else add_abi_metadata sig_to_score g input

/-- The metadata-attachment of `PowerABIScheduler::on_add_artifacts`
(scheduler.rs lines 350-360): always calls `add_abi_metadata`. -/
def on_add_artifacts_meta (sig_to_score : List ((EVMAddress × List Char) × Nat))
    (g : SchedGlobals) (input : EVMInputModel) : Option Nat :=
  add_abi_metadata sig_to_score g input

/-- A structured function signature: name and argument-type strings.  Used to
state what "number of arguments of the signature" means, following the
specification's words. -/
structure FuncSig : Type where
  name : List Char
  args : List (List Char)

/-- Comma-separated concatenation of the argument-type strings. -/
def joinComma : List (List Char) → List Char
  | [] => []
  | [a] => a
  | a :: rest => a ++ ',' :: joinComma rest

/-- Render a structured signature to its canonical string
`name(arg1,...,argn)`. -/
def renderSig (f : FuncSig) : List Char :=
  f.name ++ '(' :: (joinComma f.args ++ [')'])

/-- The slug the specification describes: `"<name>@<argument count>"` with the
argument count equal to the number of arguments of the signature. -/
def specSlug (f : FuncSig) : List Char :=
  f.name ++ '@' :: Nat.toDigits 10 f.args.length

/-- `CorpusPowerABITestcaseScore::compute` (scheduler.rs lines 374-396),
over `ℚ` in place of `f64` (exact on these integer values): `meta_lines` is
the attached `PowerABITestcaseMetadata` weight, or `none` when no metadata is
attached (the `Err(_e) => 1` default). -/
def CorpusPowerABITestcaseScore.compute (meta_lines : Option Nat)
    (m : UncoveredBranchesMetadata) (idx : CorpusId) : ℚ :=
  let num_lines := meta_lines.getD 1
  let uncov_branch := countOf m.testcase_to_uncovered_branches idx + 1
  let power : ℚ := (uncov_branch : ℚ) * 16 + (num_lines : ℚ) * 16
  let power := if power ≥ 3200 then (3200 : ℚ) else power
  let power := if power ≤ 32 then (32 : ℚ) else power
  power

/-- The corpus view used by `PowerABIScheduler::next`: entry ids in insertion
order and the currently selected id. -/
structure CorpusState : Type where
  entries : List CorpusId
  current : Option CorpusId
deriving DecidableEq

/-- `Corpus::next(id)`: the successor of `id` in insertion order, if any. -/
def corpus_next_id : List CorpusId → CorpusId → Option CorpusId
  | [], _ => none
  | [_], _ => none
  | a :: b :: rest, c => if a = c then some b else corpus_next_id (b :: rest) c

/-- `PowerABIScheduler::next` (scheduler.rs lines 294-307): fail on an empty
corpus, otherwise advance to the successor of the current id (wrapping to the
first id when there is none or no current selection) and record it as the new
current selection. -/
def sched_next (st : CorpusState) : Except String (CorpusId × CorpusState) :=
  match st.entries with
  | [] => Except.error "No entries in corpus"
  | first :: _ =>
    let id :=
      match st.current with
      | some c =>
        match corpus_next_id st.entries c with
        | some n => n
        | none => first
      | none => first
    Except.ok (id, { st with current := some id })

/-- The whole scheduler-visible fuzzing state, for the removal hooks: the
coverage ledger, the corpus with its selection cursor, and the per-entry
`PowerABITestcaseMetadata` weights. -/
structure FuzzState : Type where
  uncovered_meta : UncoveredBranchesMetadata
  corpus : CorpusState
  tc_meta : List (CorpusId × Nat)
deriving DecidableEq

/-- `RemovableScheduler::on_remove` for `PowerABIScheduler` (scheduler.rs lines
314-321): returns `Ok(())` and does not touch the state. -/
def on_remove (st : FuzzState) (_idx : CorpusId) (_testcase : Option Nat) :
    Except String FuzzState :=
  Except.ok st

/-- `RemovableScheduler::on_replace` for `PowerABIScheduler` (scheduler.rs
lines 323-330): returns `Ok(())` and does not touch the state. -/
def on_replace (st : FuzzState) (_idx : CorpusId) (_prev : Nat) :
    Except String FuzzState :=
  Except.ok st

/-- The ledger after admitting entry 1 reporting only the branch event
(address 0xAA = 170, pc 10, taken). -/
def scenarioLedger1 : UncoveredBranchesMetadata :=
  on_add_branches UncoveredBranchesMetadata.new 1 [(170, 10, true)]

/-- The ledger after then admitting entry 2 reporting only
(170, 10, not taken), completing the branch. -/
def scenarioLedger2 : UncoveredBranchesMetadata :=
  on_add_branches scenarioLedger1 2 [(170, 10, false)]

/-- The ledger after then admitting entry 3 re-observing the already fully
covered branch (170, 10, taken). -/
def scenarioLedger3 : UncoveredBranchesMetadata :=
  on_add_branches scenarioLedger2 3 [(170, 10, true)]

/-! ### Association-list lemmas -/

theorem mapGet_mapInsert_self {K V : Type} [DecidableEq K] (l : List (K × V)) (k : K) (v : V) :
    mapGet (mapInsert l k v) k = some v := by
  induction l with
  | nil => simp [mapInsert, mapGet]
  | cons p rest ih =>
    obtain ⟨k', v'⟩ := p
    by_cases h : k' = k
    · subst h; simp [mapInsert, mapGet]
    · simp [mapInsert, mapGet, h, ih]

theorem mapGet_mapInsert_ne {K V : Type} [DecidableEq K] (l : List (K × V)) (k k' : K) (v : V)
    (h : k' ≠ k) : mapGet (mapInsert l k v) k' = mapGet l k' := by
  induction l with
  | nil => simp [mapInsert, mapGet, Ne.symm h]
  | cons p rest ih =>
    obtain ⟨k'', v''⟩ := p
    by_cases hk : k'' = k
    · subst hk
      simp [mapInsert, mapGet, Ne.symm h]
    · by_cases hk2 : k'' = k'
      · subst hk2; simp [mapInsert, mapGet, hk]
      · simp [mapInsert, mapGet, hk, hk2, ih]

theorem mapGet_mapRemove_self {K V : Type} [DecidableEq K] (l : List (K × V)) (k : K) :
    mapGet (mapRemove l k) k = none := by
  induction l with
  | nil => simp [mapRemove, mapGet]
  | cons p rest ih =>
    obtain ⟨k', v'⟩ := p
    by_cases h : k' = k
    · simp [mapRemove, h, ih]
    · simp [mapRemove, mapGet, h, ih]

theorem mapGet_mapRemove_ne {K V : Type} [DecidableEq K] (l : List (K × V)) (k k' : K)
    (h : k' ≠ k) : mapGet (mapRemove l k) k' = mapGet l k' := by
  induction l with
  | nil => simp [mapRemove]
  | cons p rest ih =>
    obtain ⟨k'', v''⟩ := p
    by_cases hk : k'' = k
    · subst hk
      simp [mapRemove, mapGet, Ne.symm h, ih]
    · by_cases hk2 : k'' = k'
      · subst hk2; simp [mapRemove, mapGet, hk]
      · simp [mapRemove, mapGet, hk, hk2, ih]

theorem mapGet_eq_some_mem {K V : Type} [DecidableEq K] (l : List (K × V)) (k : K) (v : V)
    (h : mapGet l k = some v) : (k, v) ∈ l := by
  induction l with
  | nil => simp [mapGet] at h
  | cons p rest ih =>
    obtain ⟨k', v'⟩ := p
    by_cases hk : k' = k
    · subst hk
      simp [mapGet] at h
      simp [h]
    · simp [mapGet, hk] at h
      exact List.mem_cons_of_mem _ (ih h)

theorem nodupKeys_mem_mapGet {K V : Type} [DecidableEq K] (l : List (K × V)) (k : K) (v : V)
    (hn : NodupKeys l) (h : (k, v) ∈ l) : mapGet l k = some v := by
  induction l with
  | nil => simp at h
  | cons p rest ih =>
    obtain ⟨k', v'⟩ := p
    have hn' : (rest.map Prod.fst).Nodup := (List.nodup_cons.mp hn).2
    rcases List.mem_cons.mp h with h1 | h2
    · rw [Prod.mk.injEq] at h1
      obtain ⟨hk, hv⟩ := h1
      simp [mapGet, hk, hv]
    · by_cases hk : k' = k
      · subst hk
        have : k' ∈ rest.map Prod.fst := List.mem_map.mpr ⟨(k', v), h2, rfl⟩
        exact absurd this (List.nodup_cons.mp hn).1
      · simp only [mapGet, hk, if_false]
        exact ih hn' h2

theorem mem_keys_mapInsert {K V : Type} [DecidableEq K] (l : List (K × V)) (k y : K) (v : V) :
    y ∈ (mapInsert l k v).map Prod.fst ↔ y = k ∨ y ∈ l.map Prod.fst := by
  induction l with
  | nil => simp [mapInsert]
  | cons p rest ih =>
    obtain ⟨k', v'⟩ := p
    by_cases hk : k' = k
    · subst hk
      simp [mapInsert]
    · simp [mapInsert, hk, ih]
      tauto

theorem nodupKeys_mapInsert {K V : Type} [DecidableEq K] (l : List (K × V)) (k : K) (v : V)
    (hn : NodupKeys l) : NodupKeys (mapInsert l k v) := by
  unfold NodupKeys at *
  induction l with
  | nil => simp [mapInsert]
  | cons p rest ih =>
    obtain ⟨k', v'⟩ := p
    have hn1 := (List.nodup_cons.mp hn).1
    have hn2 := (List.nodup_cons.mp hn).2
    by_cases hk : k' = k
    · subst hk
      simpa [mapInsert] using hn
    · simp only [mapInsert, hk, if_false, List.map_cons]
      refine List.nodup_cons.mpr ⟨?_, ih hn2⟩
      intro hmem
      rcases (mem_keys_mapInsert rest k k' v).mp hmem with h1 | h2
      · exact hk h1
      · exact hn1 (by simpa using h2)

theorem nodupKeys_mapRemove {K V : Type} [DecidableEq K] (l : List (K × V)) (k : K)
    (hn : NodupKeys l) : NodupKeys (mapRemove l k) := by
  unfold NodupKeys at *
  induction l with
  | nil => simp [mapRemove]
  | cons p rest ih =>
    obtain ⟨k', v'⟩ := p
    have hn1 := (List.nodup_cons.mp hn).1
    have hn2 := (List.nodup_cons.mp hn).2
    by_cases hk : k' = k
    · simp only [mapRemove, hk, if_true]
      exact ih hn2
    · simp only [mapRemove, hk, if_false, List.map_cons]
      refine List.nodup_cons.mpr ⟨?_, ih hn2⟩
      intro hmem
      have hsub : (mapRemove rest k).map Prod.fst ⊆ rest.map Prod.fst := by
        intro y hy
        clear hmem ih hn hn1 hn2
        induction rest with
        | nil => simp [mapRemove] at hy
        | cons q tail ihq =>
          obtain ⟨kq, vq⟩ := q
          by_cases hq : kq = k
          · simp only [mapRemove, hq, if_true] at hy
            exact List.mem_cons_of_mem _ (ihq hy)
          · simp only [mapRemove, hq, if_false, List.map_cons, List.mem_cons] at hy ⊢
            tauto
      exact hn1 (hsub hmem)

theorem mapRemove_sublist {K V : Type} [DecidableEq K] (l : List (K × V)) (k : K) :
    (mapRemove l k).Sublist l := by
  induction l with
  | nil => simp [mapRemove]
  | cons p rest ih =>
    obtain ⟨k', v'⟩ := p
    by_cases hk : k' = k
    · simp only [mapRemove, hk, if_true]
      exact ih.cons _
    · simp only [mapRemove, hk, if_false]
      exact ih.cons₂ _

theorem mapRemove_eq_of_not_mem_keys {K V : Type} [DecidableEq K] (l : List (K × V)) (k : K)
    (h : k ∉ l.map Prod.fst) : mapRemove l k = l := by
  induction l with
  | nil => simp [mapRemove]
  | cons p rest ih =>
    obtain ⟨k', v'⟩ := p
    simp only [List.map_cons, List.mem_cons] at h
    push_neg at h
    have hk : ¬ (k' = k) := fun hh => h.1 hh.symm
    simp [mapRemove, hk, ih h.2]

theorem mapGet_none_mapRemove {K V : Type} [DecidableEq K] (l : List (K × V)) (k : K)
    (h : mapGet l k = none) : mapRemove l k = l := by
  apply mapRemove_eq_of_not_mem_keys
  intro hmem
  rcases List.mem_map.mp hmem with ⟨p, hp, hp1⟩
  clear hmem
  induction l with
  | nil => simp at hp
  | cons q rest ih =>
    obtain ⟨kq, vq⟩ := q
    by_cases hq : kq = k
    · simp [mapGet, hq] at h
    · simp only [mapGet, hq, if_false] at h
      rcases List.mem_cons.mp hp with h1 | h2
      · subst h1
        exact hq hp1
      · exact ih h h2

/-! ### Set and credit-count lemmas -/

theorem mem_setInsert {α : Type} [DecidableEq α] (x y : α) (s : List α) :
    y ∈ setInsert x s ↔ y = x ∨ y ∈ s := by
  unfold setInsert
  by_cases h : x ∈ s
  · simp only [h, if_true]
    constructor
    · exact Or.inr
    · rintro (rfl | hy)
      · exact h
      · exact hy
  · simp [h]

theorem setInsert_nodup {α : Type} [DecidableEq α] (x : α) (s : List α) (hs : s.Nodup) :
    (setInsert x s).Nodup := by
  unfold setInsert
  by_cases h : x ∈ s
  · simpa [h]
  · simp [h, hs]

theorem branchCredits_cons (b : Branch) (s : List CorpusId)
    (rest : List (Branch × List CorpusId)) (tc : CorpusId) :
    branchCredits ((b, s) :: rest) tc =
      (if tc ∈ s then 1 else 0) + branchCredits rest tc := by
  by_cases h : tc ∈ s
  · simp [branchCredits, List.filter_cons, h, Nat.add_comm]
  · simp [branchCredits, List.filter_cons, h]

theorem branchCredits_pos (l : List (Branch × List CorpusId)) (b : Branch)
    (s : List CorpusId) (tc : CorpusId) (h : mapGet l b = some s) (hm : tc ∈ s) :
    1 ≤ branchCredits l tc := by
  have hmem := mapGet_eq_some_mem l b s h
  have hf : (b, s) ∈ l.filter (fun p => tc ∈ p.2) := by
    simp only [List.mem_filter, decide_eq_true_eq]
    exact ⟨hmem, hm⟩
  have := List.length_pos.mpr (List.ne_nil_of_mem hf)
  simpa [branchCredits] using this

theorem branchCredits_insertIntoSet_ne (l : List (Branch × List CorpusId)) (b : Branch)
    (idx tc : CorpusId) (h : tc ≠ idx) :
    branchCredits (insertIntoSet l b idx) tc = branchCredits l tc := by
  induction l with
  | nil =>
    simp [insertIntoSet, mapInsert, mapGet, setInsert, branchCredits, List.filter_cons, h]
  | cons p rest ih =>
    obtain ⟨k, s'⟩ := p
    by_cases hk : k = b
    · subst hk
      have : insertIntoSet ((k, s') :: rest) k idx = (k, setInsert idx s') :: rest := by
        simp [insertIntoSet, mapInsert, mapGet]
      rw [this, branchCredits_cons, branchCredits_cons]
      have hmem : (tc ∈ setInsert idx s') ↔ tc ∈ s' := by
        rw [mem_setInsert]
        constructor
        · rintro (rfl | hy)
          · exact absurd rfl h
          · exact hy
        · exact Or.inr
      simp [hmem]
    · have : insertIntoSet ((k, s') :: rest) b idx = (k, s') :: insertIntoSet rest b idx := by
        simp [insertIntoSet, mapInsert, mapGet, hk]
      rw [this, branchCredits_cons, branchCredits_cons, ih]

theorem branchCredits_insertIntoSet_self_le (l : List (Branch × List CorpusId)) (b : Branch)
    (idx : CorpusId) :
    branchCredits (insertIntoSet l b idx) idx ≤ branchCredits l idx + 1 := by
  induction l with
  | nil =>
    simp [insertIntoSet, mapInsert, mapGet, setInsert, branchCredits, List.filter_cons]
  | cons p rest ih =>
    obtain ⟨k, s'⟩ := p
    by_cases hk : k = b
    · subst hk
      have : insertIntoSet ((k, s') :: rest) k idx = (k, setInsert idx s') :: rest := by
        simp [insertIntoSet, mapInsert, mapGet]
      rw [this, branchCredits_cons, branchCredits_cons]
      by_cases h1 : idx ∈ setInsert idx s' <;> by_cases h2 : idx ∈ s' <;> simp [h1, h2] <;> omega
    · have : insertIntoSet ((k, s') :: rest) b idx = (k, s') :: insertIntoSet rest b idx := by
        simp [insertIntoSet, mapInsert, mapGet, hk]
      rw [this, branchCredits_cons, branchCredits_cons]
      by_cases h1 : idx ∈ s' <;> simp [h1] <;> omega

theorem branchCredits_mapRemove_of_mem (l : List (Branch × List CorpusId)) (b : Branch)
    (s : List CorpusId) (tc : CorpusId) (hn : NodupKeys l) (h : mapGet l b = some s)
    (hm : tc ∈ s) :
    branchCredits (mapRemove l b) tc + 1 = branchCredits l tc := by
  induction l with
  | nil => simp [mapGet] at h
  | cons p rest ih =>
    obtain ⟨k, s'⟩ := p
    have hn1 := (List.nodup_cons.mp hn).1
    have hn2 := (List.nodup_cons.mp hn).2
    by_cases hk : k = b
    · subst hk
      have hs : s' = s := by simpa [mapGet] using h
      subst hs
      have hrm : mapRemove ((k, s') :: rest) k = rest := by
        have : mapRemove rest k = rest :=
          mapRemove_eq_of_not_mem_keys rest k (by simpa using hn1)
        simp [mapRemove, this]
      rw [hrm, branchCredits_cons]
      simp only [hm, if_true]
      omega
    · simp only [mapGet, hk, if_false] at h
      have : mapRemove ((k, s') :: rest) b = (k, s') :: mapRemove rest b := by
        simp [mapRemove, hk]
      rw [this, branchCredits_cons, branchCredits_cons]
      have := ih hn2 h
      omega

theorem branchCredits_mapRemove_of_not_mem (l : List (Branch × List CorpusId)) (b : Branch)
    (s : List CorpusId) (tc : CorpusId) (hn : NodupKeys l) (h : mapGet l b = some s)
    (hm : tc ∉ s) :
    branchCredits (mapRemove l b) tc = branchCredits l tc := by
  induction l with
  | nil => simp [mapGet] at h
  | cons p rest ih =>
    obtain ⟨k, s'⟩ := p
    have hn1 := (List.nodup_cons.mp hn).1
    have hn2 := (List.nodup_cons.mp hn).2
    by_cases hk : k = b
    · subst hk
      have hs : s' = s := by simpa [mapGet] using h
      subst hs
      have hrm : mapRemove ((k, s') :: rest) k = rest := by
        have : mapRemove rest k = rest :=
          mapRemove_eq_of_not_mem_keys rest k (by simpa using hn1)
        simp [mapRemove, this]
      rw [hrm, branchCredits_cons]
      simp [hm]
    · simp only [mapGet, hk, if_false] at h
      have : mapRemove ((k, s') :: rest) b = (k, s') :: mapRemove rest b := by
        simp [mapRemove, hk]
      rw [this, branchCredits_cons, branchCredits_cons, ih hn2 h]

theorem branchCredits_mapRemove_le (l : List (Branch × List CorpusId)) (b : Branch)
    (tc : CorpusId) :
    branchCredits (mapRemove l b) tc ≤ branchCredits l tc := by
  unfold branchCredits
  exact ((mapRemove_sublist l b).filter _).length_le

theorem branchCredits_eq_zero_of_fresh (l : List (Branch × List CorpusId)) (idx : CorpusId)
    (hn : NodupKeys l) (h : ∀ b s, mapGet l b = some s → idx ∉ s) :
    branchCredits l idx = 0 := by
  unfold branchCredits
  rw [List.length_eq_zero, List.filter_eq_nil_iff]
  intro p hp
  obtain ⟨b, s⟩ := p
  simp only [decide_eq_true_eq]
  exact h b s (nodupKeys_mem_mapGet l b s hn hp)

/-! ### Uncovered-count lemmas -/

theorem countOf_mapInsert_self (cs : List (CorpusId × Nat)) (tc : CorpusId) (n : Nat) :
    countOf (mapInsert cs tc n) tc = n := by
  simp [countOf, mapGet_mapInsert_self]

theorem countOf_mapInsert_ne (cs : List (CorpusId × Nat)) (tc tc' : CorpusId) (n : Nat)
    (h : tc' ≠ tc) : countOf (mapInsert cs tc n) tc' = countOf cs tc' := by
  simp [countOf, mapGet_mapInsert_ne _ _ _ _ h]

theorem countOf_decOrInsert_self (cs : List (CorpusId × Nat)) (tc : CorpusId) :
    countOf (decOrInsert cs tc) tc = countOf cs tc - 1 := by
  unfold decOrInsert
  cases h : mapGet cs tc with
  | none => simp [countOf, h, mapGet_mapInsert_self]
  | some n => simp [countOf, h, mapGet_mapInsert_self]

theorem countOf_decOrInsert_ne (cs : List (CorpusId × Nat)) (tc tc' : CorpusId)
    (h : tc' ≠ tc) : countOf (decOrInsert cs tc) tc' = countOf cs tc' := by
  unfold decOrInsert
  cases hg : mapGet cs tc with
  | none => simp [countOf, mapGet_mapInsert_ne _ _ _ _ h]
  | some n => simp [countOf, mapGet_mapInsert_ne _ _ _ _ h]

theorem nodupKeys_decOrInsert (cs : List (CorpusId × Nat)) (tc : CorpusId)
    (hn : NodupKeys cs) : NodupKeys (decOrInsert cs tc) := by
  unfold decOrInsert
  cases mapGet cs tc with
  | none => exact nodupKeys_mapInsert cs tc 0 hn
  | some n => exact nodupKeys_mapInsert cs tc (n - 1) hn

theorem foldDec_cons (idx t : CorpusId) (rest : List CorpusId)
    (cs : List (CorpusId × Nat)) :
    foldDec idx (t :: rest) cs =
      foldDec idx rest (if t = idx then cs else decOrInsert cs t) := by
  by_cases h : t = idx <;> simp [foldDec, h]

theorem foldDec_countOf (idx : CorpusId) (s : List CorpusId) :
    ∀ cs tc, s.Nodup →
      countOf (foldDec idx s cs) tc =
        if tc ∈ s ∧ tc ≠ idx then countOf cs tc - 1 else countOf cs tc := by
  induction s with
  | nil =>
    intro cs tc _
    simp [foldDec]
  | cons t rest ih =>
    intro cs tc hnd
    have hnd1 : t ∉ rest := (List.nodup_cons.mp hnd).1
    have hnd2 : rest.Nodup := (List.nodup_cons.mp hnd).2
    rw [foldDec_cons]
    by_cases ht : t = idx
    · subst ht
      rw [if_pos rfl, ih cs tc hnd2]
      by_cases h1 : tc = t
      · subst h1
        simp
      · by_cases h2 : tc ∈ rest <;> simp [h1, h2]
    · rw [if_neg ht, ih (decOrInsert cs t) tc hnd2]
      by_cases h1 : tc = t
      · subst h1
        rw [if_neg (fun hc => hnd1 hc.1), countOf_decOrInsert_self,
          if_pos ⟨List.mem_cons_self _ _, ht⟩]
      · rw [countOf_decOrInsert_ne cs t tc h1]
        by_cases h2 : tc ∈ rest <;> by_cases h3 : tc = idx <;> simp [h1, h2, h3]

theorem foldDec_nodupKeys (idx : CorpusId) (s : List CorpusId) :
    ∀ cs, NodupKeys cs → NodupKeys (foldDec idx s cs) := by
  induction s with
  | nil =>
    intro cs hn
    simpa [foldDec] using hn
  | cons t rest ih =>
    intro cs hn
    rw [foldDec_cons]
    by_cases ht : t = idx
    · rw [if_pos ht]
      exact ih cs hn
    · rw [if_neg ht]
      exact ih _ (nodupKeys_decOrInsert cs t hn)

/-! ### Unfolding lemmas for one `on_add` branch event -/

theorem applyEvent_none (m : UncoveredBranchesMetadata) (idx : CorpusId) (b : Branch)
    (br : Bool) (hst : mapGet m.branch_status b = none) :
    applyEvent m idx b br =
      ({ m with
          branch_status := mapInsert m.branch_status b (BranchCoveredStatus.fromBool br)
          branch_to_testcases := insertIntoSet m.branch_to_testcases b idx }, 1) := by
  simp [applyEvent, hst]

theorem applyEvent_some_updated (m : UncoveredBranchesMetadata) (idx : CorpusId) (b : Branch)
    (br : Bool) (v : BranchCoveredStatus) (hst : mapGet m.branch_status b = some v)
    (hupd : (v.merge br).2 = true) :
    applyEvent m idx b br =
      ({ m with
          testcase_to_uncovered_branches :=
            foldDec idx ((mapGet m.branch_to_testcases b).getD [])
              m.testcase_to_uncovered_branches
          branch_to_testcases := mapRemove m.branch_to_testcases b
          branch_status := mapInsert m.branch_status b (v.merge br).1 }, 0) := by
  simp [applyEvent, hst, hupd]

theorem applyEvent_some_not_updated (m : UncoveredBranchesMetadata) (idx : CorpusId)
    (b : Branch) (br : Bool) (v : BranchCoveredStatus)
    (hst : mapGet m.branch_status b = some v) (hupd : (v.merge br).2 = false) :
    applyEvent m idx b br =
      ({ m with
          branch_to_testcases := insertIntoSet m.branch_to_testcases b idx
          branch_status := mapInsert m.branch_status b (v.merge br).1 }, 1) := by
  simp [applyEvent, hst, hupd]

theorem nodupKeys_insertIntoSet (l : List (Branch × List CorpusId)) (b : Branch)
    (idx : CorpusId) (h1 : NodupKeys l) : NodupKeys (insertIntoSet l b idx) :=
  nodupKeys_mapInsert l b _ h1

theorem setsNodup_insertIntoSet (l : List (Branch × List CorpusId)) (b : Branch)
    (idx : CorpusId) (h3 : ∀ b' s, mapGet l b' = some s → s.Nodup) :
    ∀ b' s, mapGet (insertIntoSet l b idx) b' = some s → s.Nodup := by
  intro b' s hs
  by_cases hb : b' = b
  · subst hb
    rw [insertIntoSet, mapGet_mapInsert_self] at hs
    have hbase : ((mapGet l b').getD []).Nodup := by
      cases hg : mapGet l b' with
      | none => simp
      | some t => simpa using h3 b' t hg
    have heq := Option.some.inj hs
    exact heq ▸ setInsert_nodup idx _ hbase
  · rw [insertIntoSet, mapGet_mapInsert_ne _ _ _ _ hb] at hs
    exact h3 b' s hs

/-- Invariant preservation across one non-duplicate branch event of `on_add`. -/
theorem applyEvent_inv (m : UncoveredBranchesMetadata) (idx : CorpusId) (b : Branch)
    (br : Bool)
    (h1 : NodupKeys m.branch_to_testcases)
    (h2 : NodupKeys m.testcase_to_uncovered_branches)
    (h3 : ∀ b' s, mapGet m.branch_to_testcases b' = some s → s.Nodup)
    (h4 : ∀ tc, tc ≠ idx → branchCredits m.branch_to_testcases tc ≤
      countOf m.testcase_to_uncovered_branches tc) :
    NodupKeys (applyEvent m idx b br).1.branch_to_testcases ∧
    NodupKeys (applyEvent m idx b br).1.testcase_to_uncovered_branches ∧
    (∀ b' s, mapGet (applyEvent m idx b br).1.branch_to_testcases b' = some s → s.Nodup) ∧
    (∀ tc, tc ≠ idx → branchCredits (applyEvent m idx b br).1.branch_to_testcases tc ≤
      countOf (applyEvent m idx b br).1.testcase_to_uncovered_branches tc) ∧
    branchCredits (applyEvent m idx b br).1.branch_to_testcases idx ≤
      branchCredits m.branch_to_testcases idx + (applyEvent m idx b br).2 := by
  cases hst : mapGet m.branch_status b with
  | none =>
    rw [applyEvent_none m idx b br hst]
    refine ⟨nodupKeys_insertIntoSet _ _ _ h1, h2, setsNodup_insertIntoSet _ _ _ h3, ?_, ?_⟩
    · intro tc htc
      show branchCredits (insertIntoSet m.branch_to_testcases b idx) tc ≤
        countOf m.testcase_to_uncovered_branches tc
      rw [branchCredits_insertIntoSet_ne _ _ _ _ htc]
      exact h4 tc htc
    · show branchCredits (insertIntoSet m.branch_to_testcases b idx) idx ≤
        branchCredits m.branch_to_testcases idx + 1
      exact branchCredits_insertIntoSet_self_le _ _ _
  | some v =>
    cases hupd : (v.merge br).2 with
    | false =>
      rw [applyEvent_some_not_updated m idx b br v hst hupd]
      refine ⟨nodupKeys_insertIntoSet _ _ _ h1, h2, setsNodup_insertIntoSet _ _ _ h3, ?_, ?_⟩
      · intro tc htc
        show branchCredits (insertIntoSet m.branch_to_testcases b idx) tc ≤
          countOf m.testcase_to_uncovered_branches tc
        rw [branchCredits_insertIntoSet_ne _ _ _ _ htc]
        exact h4 tc htc
      · show branchCredits (insertIntoSet m.branch_to_testcases b idx) idx ≤
          branchCredits m.branch_to_testcases idx + 1
        exact branchCredits_insertIntoSet_self_le _ _ _
    | true =>
      rw [applyEvent_some_updated m idx b br v hst hupd]
      cases hg : mapGet m.branch_to_testcases b with
      | none =>
        have hrm : mapRemove m.branch_to_testcases b = m.branch_to_testcases :=
          mapGet_none_mapRemove _ _ hg
        refine ⟨?_, ?_, ?_, ?_, ?_⟩
        · show NodupKeys (mapRemove m.branch_to_testcases b)
          rw [hrm]; exact h1
        · exact h2
        · intro b' t ht
          have ht' : mapGet (mapRemove m.branch_to_testcases b) b' = some t := ht
          rw [hrm] at ht'
          exact h3 b' t ht'
        · intro tc htc
          show branchCredits (mapRemove m.branch_to_testcases b) tc ≤
            countOf m.testcase_to_uncovered_branches tc
          rw [hrm]
          exact h4 tc htc
        · show branchCredits (mapRemove m.branch_to_testcases b) idx ≤
            branchCredits m.branch_to_testcases idx + 0
          rw [hrm]
          omega
      | some s =>
        have hsnd : s.Nodup := h3 b s hg
        refine ⟨nodupKeys_mapRemove _ _ h1, ?_, ?_, ?_, ?_⟩
        · exact foldDec_nodupKeys idx s _ h2
        · intro b' t ht
          have ht' : mapGet (mapRemove m.branch_to_testcases b) b' = some t := ht
          by_cases hb : b' = b
          · subst hb
            rw [mapGet_mapRemove_self] at ht'
            exact absurd ht' (by simp)
          · rw [mapGet_mapRemove_ne _ _ _ hb] at ht'
            exact h3 b' t ht'
        · intro tc htc
          show branchCredits (mapRemove m.branch_to_testcases b) tc ≤
            countOf (foldDec idx s m.testcase_to_uncovered_branches) tc
          rw [foldDec_countOf idx s _ tc hsnd]
          by_cases hmem : tc ∈ s
          · rw [if_pos ⟨hmem, htc⟩]
            have hc := branchCredits_mapRemove_of_mem _ _ _ _ h1 hg hmem
            have hle := h4 tc htc
            omega
          · rw [if_neg (fun hc => hmem hc.1)]
            rw [branchCredits_mapRemove_of_not_mem _ _ _ _ h1 hg hmem]
            exact h4 tc htc
        · show branchCredits (mapRemove m.branch_to_testcases b) idx ≤
            branchCredits m.branch_to_testcases idx + 0
          have := branchCredits_mapRemove_le m.branch_to_testcases b idx
          omega

/-- Invariant preservation through the whole event loop of `on_add`. -/
theorem processEvents_inv (idx : CorpusId) (events : List (EVMAddress × Nat × Bool)) :
    ∀ (m : UncoveredBranchesMetadata) (cnt : Nat) (fullfilled : List Branch),
      NodupKeys m.branch_to_testcases →
      NodupKeys m.testcase_to_uncovered_branches →
      (∀ b' s, mapGet m.branch_to_testcases b' = some s → s.Nodup) →
      (∀ tc, tc ≠ idx → branchCredits m.branch_to_testcases tc ≤
        countOf m.testcase_to_uncovered_branches tc) →
      branchCredits m.branch_to_testcases idx ≤ cnt →
      NodupKeys (processEvents idx events m cnt fullfilled).1.branch_to_testcases ∧
      NodupKeys (processEvents idx events m cnt fullfilled).1.testcase_to_uncovered_branches ∧
      (∀ b' s, mapGet (processEvents idx events m cnt fullfilled).1.branch_to_testcases b' =
        some s → s.Nodup) ∧
      (∀ tc, tc ≠ idx →
        branchCredits (processEvents idx events m cnt fullfilled).1.branch_to_testcases tc ≤
          countOf (processEvents idx events m cnt fullfilled).1.testcase_to_uncovered_branches
            tc) ∧
      branchCredits (processEvents idx events m cnt fullfilled).1.branch_to_testcases idx ≤
        (processEvents idx events m cnt fullfilled).2 := by
  induction events with
  | nil =>
    intro m cnt fullfilled h1 h2 h3 h4 h5
    exact ⟨h1, h2, h3, h4, h5⟩
  | cons e rest ih =>
    intro m cnt fullfilled h1 h2 h3 h4 h5
    obtain ⟨addr, pc, br⟩ := e
    by_cases hf : (addr, pc) ∈ fullfilled
    · rw [show processEvents idx ((addr, pc, br) :: rest) m cnt fullfilled =
        processEvents idx rest m cnt fullfilled by simp [processEvents, hf]]
      exact ih m cnt fullfilled h1 h2 h3 h4 h5
    · rw [show processEvents idx ((addr, pc, br) :: rest) m cnt fullfilled =
        processEvents idx rest (applyEvent m idx (addr, pc) br).1
          (cnt + (applyEvent m idx (addr, pc) br).2)
          ((addr, pc) :: fullfilled) by simp [processEvents, hf]]
      obtain ⟨g1, g2, g3, g4, g5⟩ := applyEvent_inv m idx (addr, pc) br h1 h2 h3 h4
      exact ih _ _ _ g1 g2 g3 g4 (by omega)

/-- `on_add` preserves the ledger invariant when admitting a fresh entry. -/
theorem on_add_branches_inv (m : UncoveredBranchesMetadata) (idx : CorpusId)
    (events : List (EVMAddress × Nat × Bool)) (hInv : LedgerInv m) (hF : FreshId m idx) :
    LedgerInv (on_add_branches m idx events) := by
  obtain ⟨h1, h2, h3, h4⟩ := hInv
  obtain ⟨hF1, _hF2⟩ := hF
  have hcr : branchCredits m.branch_to_testcases idx = 0 :=
    branchCredits_eq_zero_of_fresh _ _ h1 hF1
  obtain ⟨g1, g2, g3, g4, g5⟩ :=
    processEvents_inv idx events m 0 [] h1 h2 h3 (fun tc _ => h4 tc) (by omega)
  refine ⟨g1, ?_, g3, ?_⟩
  · exact nodupKeys_mapInsert _ _ _ g2
  · intro tc
    show branchCredits (processEvents idx events m 0 []).1.branch_to_testcases tc ≤
      countOf (mapInsert (processEvents idx events m 0 []).1.testcase_to_uncovered_branches
        idx (processEvents idx events m 0 []).2) tc
    by_cases htc : tc = idx
    · subst htc
      rw [countOf_mapInsert_self]
      exact g5
    · rw [countOf_mapInsert_ne _ _ _ _ htc]
      exact g4 tc htc

/-- Every reachable ledger state satisfies the internal invariant. -/
theorem reachable_LedgerInv (m : UncoveredBranchesMetadata) (h : Reachable m) :
    LedgerInv m := by
  induction h with
  | init =>
    refine ⟨?_, ?_, ?_, ?_⟩ <;> simp [UncoveredBranchesMetadata.new, NodupKeys, mapGet,
      branchCredits, countOf]
  | step m' idx events _ hF ih => exact on_add_branches_inv m' idx events ih hF

/-! ### Deduplication of branch events within one admission -/

theorem processEvents_dedup (idx : CorpusId) (events : List (EVMAddress × Nat × Bool)) :
    ∀ (m : UncoveredBranchesMetadata) (cnt : Nat) (fullfilled : List Branch),
      processEvents idx events m cnt fullfilled =
        processEvents idx (dedupByBranchAux events fullfilled) m cnt fullfilled := by
  induction events with
  | nil => intro m cnt fullfilled; rfl
  | cons e rest ih =>
    intro m cnt fullfilled
    obtain ⟨addr, pc, br⟩ := e
    by_cases hf : (addr, pc) ∈ fullfilled
    · rw [show dedupByBranchAux ((addr, pc, br) :: rest) fullfilled =
        dedupByBranchAux rest fullfilled by simp [dedupByBranchAux, hf]]
      rw [show processEvents idx ((addr, pc, br) :: rest) m cnt fullfilled =
        processEvents idx rest m cnt fullfilled by simp [processEvents, hf]]
      exact ih m cnt fullfilled
    · rw [show dedupByBranchAux ((addr, pc, br) :: rest) fullfilled =
        (addr, pc, br) :: dedupByBranchAux rest ((addr, pc) :: fullfilled) by
          simp [dedupByBranchAux, hf]]
      rw [show processEvents idx ((addr, pc, br) :: rest) m cnt fullfilled =
        processEvents idx rest (applyEvent m idx (addr, pc) br).1
          (cnt + (applyEvent m idx (addr, pc) br).2) ((addr, pc) :: fullfilled) by
          simp [processEvents, hf]]
      rw [show processEvents idx
          ((addr, pc, br) :: dedupByBranchAux rest ((addr, pc) :: fullfilled)) m cnt
          fullfilled =
        processEvents idx (dedupByBranchAux rest ((addr, pc) :: fullfilled))
          (applyEvent m idx (addr, pc) br).1
          (cnt + (applyEvent m idx (addr, pc) br).2) ((addr, pc) :: fullfilled) by
          simp [processEvents, hf]]
      exact ih _ _ _

/-! ### Function-slug lemmas -/

theorem containsParenPair_append_of_no_lparen (l : List Char) (t : List Char)
    (h : ∀ c ∈ l, c ≠ '(') : containsParenPair (l ++ t) = containsParenPair t := by
  induction l with
  | nil => rfl
  | cons c l' ih =>
    have hc : c ≠ '(' := h c (List.mem_cons_self _ _)
    have h' : ∀ c' ∈ l', c' ≠ '(' := fun c' hc' => h c' (List.mem_cons_of_mem _ hc')
    cases hlt : l' ++ t with
    | nil =>
      have hl' : l' = [] := by
        cases l' with
        | nil => rfl
        | cons x xs => simp at hlt
      have ht : t = [] := by
        cases t with
        | nil => rfl
        | cons x xs =>
          rw [hl'] at hlt
          simp at hlt
      subst hl' ht
      rfl
    | cons d u =>
      show containsParenPair (c :: (l' ++ t)) = containsParenPair t
      rw [hlt]
      show ((c = '(' && d = ')') || containsParenPair (d :: u)) = containsParenPair t
      rw [← hlt, ih h']
      simp [hc]

theorem containsParenPair_no_lparen_rparen (l : List Char) (h : ∀ c ∈ l, c ≠ '(') :
    containsParenPair (l ++ [')']) = false := by
  rw [containsParenPair_append_of_no_lparen l [')'] h]
  rfl

theorem mem_joinComma (args : List (List Char)) (c : Char) (h : c ∈ joinComma args) :
    c = ',' ∨ ∃ a ∈ args, c ∈ a := by
  induction args with
  | nil => simp [joinComma] at h
  | cons a rest ih =>
    cases rest with
    | nil =>
      simp only [joinComma] at h
      exact Or.inr ⟨a, List.mem_cons_self _ _, h⟩
    | cons b t =>
      show c = ',' ∨ ∃ x ∈ a :: b :: t, c ∈ x
      rw [show joinComma (a :: b :: t) = a ++ ',' :: joinComma (b :: t) from rfl] at h
      rcases List.mem_append.mp h with h1 | h2
      · exact Or.inr ⟨a, List.mem_cons_self _ _, h1⟩
      · rcases List.mem_cons.mp h2 with h3 | h4
        · exact Or.inl h3
        · rcases ih h4 with h5 | ⟨x, hx, hcx⟩
          · exact Or.inl h5
          · exact Or.inr ⟨x, List.mem_cons_of_mem _ hx, hcx⟩

theorem count_joinComma (args : List (List Char))
    (h : ∀ a ∈ args, ∀ c ∈ a, c ≠ ',') (hne : args ≠ []) :
    (joinComma args).count ',' = args.length - 1 := by
  induction args with
  | nil => exact absurd rfl hne
  | cons a rest ih =>
    have ha : ∀ c ∈ a, c ≠ ',' := h a (List.mem_cons_self _ _)
    have hca : a.count ',' = 0 :=
      List.count_eq_zero.mpr (fun hc => ha ',' hc rfl)
    cases rest with
    | nil =>
      show a.count ',' = 0
      exact hca
    | cons b t =>
      have h' : ∀ x ∈ b :: t, ∀ c ∈ x, c ≠ ',' :=
        fun x hx => h x (List.mem_cons_of_mem _ hx)
      have := ih h' (by simp)
      rw [show joinComma (a :: b :: t) = a ++ ',' :: joinComma (b :: t) from rfl]
      rw [List.count_append, hca, List.count_cons_self]
      simp only [List.length_cons] at this ⊢
      omega

theorem takeWhile_name (name : List Char) (rest : List Char)
    (h : ∀ c ∈ name, c ≠ '(') :
    (name ++ '(' :: rest).takeWhile (fun c => c ≠ '(') = name := by
  induction name with
  | nil =>
    simp only [List.nil_append]
    exact List.takeWhile_cons_of_neg (by simp)
  | cons c l ih =>
    have hc : c ≠ '(' := h c (List.mem_cons_self _ _)
    have h' : ∀ c' ∈ l, c' ≠ '(' := fun c' hc' => h c' (List.mem_cons_of_mem _ hc')
    rw [List.cons_append, List.takeWhile_cons_of_pos (by simp [hc]), ih h']

theorem slugOfSig_renderSig (f : FuncSig)
    (hname : ∀ c ∈ f.name, c ≠ '(' ∧ c ≠ ')' ∧ c ≠ ',')
    (hargs : ∀ a ∈ f.args, a ≠ [] ∧ ∀ c ∈ a, c ≠ '(' ∧ c ≠ ')' ∧ c ≠ ',') :
    slugOfSig (renderSig f) = specSlug f := by
  obtain ⟨name, args⟩ := f
  simp only at hname hargs
  have hname1 : ∀ c ∈ name, c ≠ '(' := fun c hc => (hname c hc).1
  have hnamec : name.count ',' = 0 :=
    List.count_eq_zero.mpr (fun hc => (hname ',' hc).2.2 rfl)
  have htw : (renderSig ⟨name, args⟩).takeWhile (fun c => c ≠ '(') = name :=
    takeWhile_name name _ hname1
  cases args with
  | nil =>
    have hr : renderSig ⟨name, []⟩ = name ++ '(' :: ')' :: [] := rfl
    have hpp : containsParenPair (renderSig ⟨name, []⟩) = true := by
      rw [hr, containsParenPair_append_of_no_lparen name _ hname1]
      rfl
    have hcount : (renderSig ⟨name, []⟩).count ',' = 0 := by
      rw [hr, List.count_append, hnamec]
      rfl
    simp only [slugOfSig, specSlug, hpp, hcount, htw, if_true]
    rfl
  | cons a rest =>
    have hane : a ≠ [] := (hargs a (List.mem_cons_self _ _)).1
    cases a with
    | nil => exact absurd rfl hane
    | cons d a' =>
      have hjoin : ∃ u, joinComma ((d :: a') :: rest) = d :: u := by
        cases rest with
        | nil => exact ⟨a', rfl⟩
        | cons b t => exact ⟨a' ++ ',' :: joinComma (b :: t), rfl⟩
      obtain ⟨u, hu⟩ := hjoin
      have hmidchar : ∀ c ∈ joinComma ((d :: a') :: rest), c ≠ '(' := by
        intro c hc
        rcases mem_joinComma _ c hc with h1 | ⟨x, hx, hcx⟩
        · subst h1; decide
        · exact ((hargs x hx).2 c hcx).1
      have hd : d ≠ ')' :=
        ((hargs (d :: a') (List.mem_cons_self _ _)).2 d (List.mem_cons_self _ _)).2.1
      have hpp : containsParenPair (renderSig ⟨name, (d :: a') :: rest⟩) = false := by
        show containsParenPair
          (name ++ '(' :: (joinComma ((d :: a') :: rest) ++ [')'])) = false
        rw [containsParenPair_append_of_no_lparen name _ hname1, hu]
        show (('(' = '(' && d = ')') || containsParenPair (d :: (u ++ [')']))) = false
        have h1 : containsParenPair ((d :: u) ++ [')']) = false := by
          apply containsParenPair_no_lparen_rparen
          intro c hc
          apply hmidchar
          rw [hu]
          exact hc
        rw [List.cons_append] at h1
        simp [hd, h1]
      have hcomma : ∀ x ∈ (d :: a') :: rest, ∀ c ∈ x, c ≠ ',' :=
        fun x hx c hc => ((hargs x hx).2 c hc).2.2
      have hcnt : (renderSig ⟨name, (d :: a') :: rest⟩).count ',' =
          ((d :: a') :: rest).length - 1 := by
        show (name ++ '(' :: (joinComma ((d :: a') :: rest) ++ [')'])).count ',' = _
        rw [List.count_append, hnamec, List.count_cons, List.count_append,
          count_joinComma _ hcomma (by simp)]
        simp
      simp only [slugOfSig, specSlug, hpp, hcnt, htw, if_false, Bool.false_eq_true]
      rw [show ((d :: a') :: rest).length - 1 + 1 = ((d :: a') :: rest).length by simp]

/-! ### Claim theorems -/

/-- Claim C6: `BranchCoveredStatus.merge` is a pure total function implementing
exactly the specified table: `Both` merged with anything yields `(Both, false)`;
`True` with `true` yields `(True, false)` and with `false` yields
`(Both, true)`; `False` symmetrically; absent statuses start at `True`/`False`
per the observed direction; the became-fully-covered flag is true exactly on a
transition into `Both`; and `Both` is absorbing. -/
theorem merge_status_table (st : BranchCoveredStatus) (br : Bool) :
    BranchCoveredStatus.Both.merge br = (BranchCoveredStatus.Both, false) ∧
    BranchCoveredStatus.True.merge true = (BranchCoveredStatus.True, false) ∧
    BranchCoveredStatus.True.merge false = (BranchCoveredStatus.Both, true) ∧
    BranchCoveredStatus.False.merge false = (BranchCoveredStatus.False, false) ∧
    BranchCoveredStatus.False.merge true = (BranchCoveredStatus.Both, true) ∧
    BranchCoveredStatus.fromBool br =
      (if br then BranchCoveredStatus.True else BranchCoveredStatus.False) ∧
    ((st.merge br).2 = true ↔
      st ≠ BranchCoveredStatus.Both ∧ (st.merge br).1 = BranchCoveredStatus.Both) ∧
    (st = BranchCoveredStatus.Both → st.merge br = (BranchCoveredStatus.Both, false)) ∧
    (∀ br', (st.merge br).1 = BranchCoveredStatus.Both →
      ((st.merge br).1.merge br').1 = BranchCoveredStatus.Both) := by
  cases st <;> cases br <;> decide

/-- Witness for C6 at concrete inputs. -/
theorem merge_status_table_witness :
    BranchCoveredStatus.True.merge false = (BranchCoveredStatus.Both, true) ∧
    (BranchCoveredStatus.True.merge false).2 = true := by
  have h := merge_status_table BranchCoveredStatus.True false
  exact ⟨h.2.2.1, (h.2.2.2.2.2.2.1).mpr (by decide)⟩

/-- Claim C7: within a single `on_add` call only the first reported event for
each distinct (address, pc) pair is applied; processing the full event list
yields exactly the same ledger state as processing the per-branch-deduplicated
list. -/
theorem on_add_branches_dedup (m : UncoveredBranchesMetadata) (idx : CorpusId)
    (events : List (EVMAddress × Nat × Bool)) :
    on_add_branches m idx events = on_add_branches m idx (dedupByBranch events) := by
  unfold on_add_branches dedupByBranch
  rw [← processEvents_dedup idx events m 0 []]

/-- Claim C10: `on_remove` and `on_replace` return `Ok` and leave every
component of the state (branch status, credit sets, uncovered counts, per-entry
metadata, corpus entries and current selection) unchanged. -/
theorem removal_hooks_noop (st : FuzzState) (idx : CorpusId) (tc : Option Nat)
    (prev : Nat) :
    on_remove st idx tc = Except.ok st ∧
    on_replace st idx prev = Except.ok st ∧
    (∀ st', on_remove st idx tc = Except.ok st' →
      st'.uncovered_meta.branch_status = st.uncovered_meta.branch_status ∧
      st'.uncovered_meta.branch_to_testcases = st.uncovered_meta.branch_to_testcases ∧
      st'.uncovered_meta.testcase_to_uncovered_branches =
        st.uncovered_meta.testcase_to_uncovered_branches ∧
      st'.tc_meta = st.tc_meta ∧
      st'.corpus.entries = st.corpus.entries ∧
      st'.corpus.current = st.corpus.current) ∧
    (∀ st', on_replace st idx prev = Except.ok st' →
      st'.uncovered_meta.branch_status = st.uncovered_meta.branch_status ∧
      st'.uncovered_meta.branch_to_testcases = st.uncovered_meta.branch_to_testcases ∧
      st'.uncovered_meta.testcase_to_uncovered_branches =
        st.uncovered_meta.testcase_to_uncovered_branches ∧
      st'.tc_meta = st.tc_meta ∧
      st'.corpus.entries = st.corpus.entries ∧
      st'.corpus.current = st.corpus.current) := by
  refine ⟨rfl, rfl, ?_, ?_⟩ <;>
    · intro st' h
      have hst : st = st' := by
        simpa [on_remove, on_replace] using h
      subst hst
      exact ⟨rfl, rfl, rfl, rfl, rfl, rfl⟩

/-- Witness for C10 at a concrete state. -/
theorem removal_hooks_noop_witness :
    on_remove ⟨UncoveredBranchesMetadata.new, ⟨[7], some 7⟩, [(7, 1)]⟩ 7 none =
      Except.ok ⟨UncoveredBranchesMetadata.new, ⟨[7], some 7⟩, [(7, 1)]⟩ ∧
    (⟨UncoveredBranchesMetadata.new, ⟨[7], some 7⟩,
        [(7, 1)]⟩ : FuzzState).tc_meta = [(7, 1)] := by
  have h := removal_hooks_noop ⟨UncoveredBranchesMetadata.new, ⟨[7], some 7⟩, [(7, 1)]⟩
    7 none 0
  exact ⟨h.1, (h.2.2.1 _ h.1).2.2.2.1⟩

/-- Claim C5: `next()` fails with the "No entries in corpus" error on an empty
corpus; otherwise it returns the insertion-order successor of the current id,
wrapping to the first id when there is no successor or no current selection,
records it as the new current selection, and therefore cycles A, B, C, A on a
three-entry corpus starting from no selection. -/
theorem sched_next_contract (cur : Option CorpusId) (A B C : CorpusId) :
    sched_next ⟨[], cur⟩ = Except.error "No entries in corpus" ∧
    (∀ first rest, sched_next ⟨first :: rest, none⟩ =
      Except.ok (first, ⟨first :: rest, some first⟩)) ∧
    (∀ first rest c n, corpus_next_id (first :: rest) c = some n →
      sched_next ⟨first :: rest, some c⟩ = Except.ok (n, ⟨first :: rest, some n⟩)) ∧
    (∀ first rest c, corpus_next_id (first :: rest) c = none →
      sched_next ⟨first :: rest, some c⟩ =
        Except.ok (first, ⟨first :: rest, some first⟩)) ∧
    (A ≠ B → A ≠ C → B ≠ C →
      sched_next ⟨[A, B, C], none⟩ = Except.ok (A, ⟨[A, B, C], some A⟩) ∧
      sched_next ⟨[A, B, C], some A⟩ = Except.ok (B, ⟨[A, B, C], some B⟩) ∧
      sched_next ⟨[A, B, C], some B⟩ = Except.ok (C, ⟨[A, B, C], some C⟩) ∧
      sched_next ⟨[A, B, C], some C⟩ = Except.ok (A, ⟨[A, B, C], some A⟩)) := by
  refine ⟨rfl, fun first rest => rfl, ?_, ?_, ?_⟩
  · intro first rest c n h
    simp [sched_next, h]
  · intro first rest c h
    simp [sched_next, h]
  · intro hAB hAC hBC
    refine ⟨rfl, ?_, ?_, ?_⟩
    · simp [sched_next, corpus_next_id]
    · simp [sched_next, corpus_next_id, hAB]
    · simp [sched_next, corpus_next_id, hAC, hBC]

/-- Witness for C5 at concrete ids 0, 1, 2. -/
theorem sched_next_contract_witness :
    sched_next ⟨[0, 1, 2], some 2⟩ = Except.ok (0, ⟨[0, 1, 2], some 0⟩) := by
  have h := sched_next_contract none 0 1 2
  exact (h.2.2.2.2 (by decide) (by decide) (by decide)).2.2.2

/-- Claim C4: for every entry id, ledger state, and attached metadata weight
(defaulting to 1 when absent), the power score equals the clamp of
`(uncovered + 1) * 16 + weight * 16` to `[32, 3200]`, where `uncovered`
defaults to 0 for absent ids; in particular it always lies in `[32, 3200]`
and the computation is total. -/
theorem compute_power_contract (meta_lines : Option Nat)
    (m : UncoveredBranchesMetadata) (idx : CorpusId) :
    CorpusPowerABITestcaseScore.compute meta_lines m idx =
      max 32 (min 3200
        (((countOf m.testcase_to_uncovered_branches idx : ℚ) + 1) * 16 +
          (meta_lines.getD 1 : ℚ) * 16)) ∧
    32 ≤ CorpusPowerABITestcaseScore.compute meta_lines m idx ∧
    CorpusPowerABITestcaseScore.compute meta_lines m idx ≤ 3200 := by
  have h0 : (0 : ℚ) ≤ (countOf m.testcase_to_uncovered_branches idx : ℚ) := by positivity
  have h0w : (0 : ℚ) ≤ ((meta_lines.getD 1 : Nat) : ℚ) := by positivity
  unfold CorpusPowerABITestcaseScore.compute
  push_cast
  set A : ℚ := (countOf m.testcase_to_uncovered_branches idx : ℚ) with hA
  set W : ℚ := ((meta_lines.getD 1 : Nat) : ℚ) with hW
  by_cases h1 : (A + 1) * 16 + W * 16 ≥ 3200
  · rw [if_pos h1, if_neg (by norm_num)]
    refine ⟨?_, by norm_num, by norm_num⟩
    rw [min_eq_left (by linarith), max_eq_right (by norm_num)]
  · rw [if_neg h1]
    by_cases h2 : (A + 1) * 16 + W * 16 ≤ 32
    · rw [if_pos h2]
      refine ⟨?_, by norm_num, by norm_num⟩
      rw [min_eq_right (by linarith), max_eq_left h2]
    · rw [if_neg h2]
      refine ⟨?_, by linarith, by linarith⟩
      rw [min_eq_right (by linarith), max_eq_right (by linarith)]

/-- Claim C8: a non-step entry with a decodable ABI target whose selector is
missing from the `FUNCTION_SIG` table makes metadata attachment fail hard
(modelled as `none`) in `on_add`, and likewise unconditionally in
`on_add_artifacts`; the default weight 1 is attached silently only for entries
with no decodable ABI target or for step entries. -/
theorem unresolvable_sig_fails (sig_to_score : List ((EVMAddress × List Char) × Nat))
    (g : SchedGlobals) (input : EVMInputModel) (sel : Nat) :
    (input.data_abi = some sel → mapGet g.func_sig sel = none →
      (input.step = false → on_add_meta sig_to_score g input = none) ∧
      on_add_artifacts_meta sig_to_score g input = none) ∧
    (input.data_abi = none →
      add_abi_metadata sig_to_score g input = some 1 ∧
      on_add_artifacts_meta sig_to_score g input = some 1 ∧
      (input.step = false → on_add_meta sig_to_score g input = some 1)) ∧
    (input.step = true → on_add_meta sig_to_score g input = some 1) := by
  refine ⟨?_, ?_, ?_⟩
  · intro habi hsig
    constructor
    · intro hstep
      simp [on_add_meta, hstep, add_abi_metadata, habi, hsig]
    · simp [on_add_artifacts_meta, add_abi_metadata, habi, hsig]
  · intro habi
    refine ⟨?_, ?_, ?_⟩
    · simp [add_abi_metadata, habi]
    · simp [on_add_artifacts_meta, add_abi_metadata, habi]
    · intro hstep
      simp [on_add_meta, hstep, add_abi_metadata, habi]
  · intro hstep
    simp [on_add_meta, hstep]

/-- Witness for C8: a concrete non-step entry with selector 5 absent from an
empty signature table fails hard, and a concrete ABI-less entry defaults to 1. -/
theorem unresolvable_sig_fails_witness :
    on_add_meta [] ⟨[], []⟩ ⟨0, some 5, false⟩ = none ∧
    on_add_meta [] ⟨[], []⟩ ⟨0, none, false⟩ = some 1 := by
  have h1 := unresolvable_sig_fails [] ⟨[], []⟩ ⟨0, some 5, false⟩ 5
  have h2 := unresolvable_sig_fails [] ⟨[], []⟩ ⟨0, none, false⟩ 5
  exact ⟨(h1.1 rfl rfl).1 rfl, (h2.2.1 rfl).2.2 rfl⟩

/-- Claim C9 (amended): the attached weight equals the ABI Score Table value at
(redirection-resolved contract address, slug) with default 1 when absent, and
entries with no decodable target get weight 1; the slug's argument count is the
comma count of the signature string plus one unless `"()"` occurs, which equals
the signature's true number of arguments whenever the name and the argument
types contain no parentheses or commas (each argument nonempty). -/
theorem abi_weight_derivation (sig_to_score : List ((EVMAddress × List Char) × Nat))
    (g : SchedGlobals) (input : EVMInputModel) :
    (input.data_abi = none → add_abi_metadata sig_to_score g input = some 1) ∧
    (∀ sel sig, input.data_abi = some sel → mapGet g.func_sig sel = some sig →
      add_abi_metadata sig_to_score g input =
        some ((mapGet sig_to_score
          ((mapGet g.addr_code_addr input.contract).getD input.contract,
            slugOfSig sig)).getD 1)) ∧
    (∀ sel f, input.data_abi = some sel →
      mapGet g.func_sig sel = some (renderSig f) →
      (∀ c ∈ f.name, c ≠ '(' ∧ c ≠ ')' ∧ c ≠ ',') →
      (∀ a ∈ f.args, a ≠ [] ∧ ∀ c ∈ a, c ≠ '(' ∧ c ≠ ')' ∧ c ≠ ',') →
      add_abi_metadata sig_to_score g input =
        some ((mapGet sig_to_score
          ((mapGet g.addr_code_addr input.contract).getD input.contract,
            specSlug f)).getD 1)) := by
  refine ⟨?_, ?_, ?_⟩
  · intro habi
    simp [add_abi_metadata, habi]
  · intro sel sig habi hsig
    simp [add_abi_metadata, habi, hsig]
  · intro sel f habi hsig hname hargs
    rw [show add_abi_metadata sig_to_score g input =
        some ((mapGet sig_to_score
          ((mapGet g.addr_code_addr input.contract).getD input.contract,
            slugOfSig (renderSig f))).getD 1) by simp [add_abi_metadata, habi, hsig]]
    rw [slugOfSig_renderSig f hname hargs]

/-- Witness for C9 at a concrete flat signature `f(u)` scoring 7. -/
theorem abi_weight_derivation_witness :
    add_abi_metadata [((0, specSlug ⟨['f'], [['u']]⟩), 7)]
        ⟨[(1, renderSig ⟨['f'], [['u']]⟩)], []⟩ ⟨0, some 1, false⟩ = some 7 := by
  have h := abi_weight_derivation [((0, specSlug ⟨['f'], [['u']]⟩), 7)]
    ⟨[(1, renderSig ⟨['f'], [['u']]⟩)], []⟩ ⟨0, some 1, false⟩
  rw [h.2.2 1 ⟨['f'], [['u']]⟩ rfl (by rfl) (by decide) (by decide)]
  rfl

/-- Counterexample for C9 as stated: for the one-argument tuple signature
`f((u,u))` the code's comma-count slug is `f@2`, not `f@1`, so the attached
weight (default 1) differs from the table value 5 stored under the key built
from the signature's true argument count. -/
theorem abi_weight_tuple_counterexample :
    add_abi_metadata [((0, specSlug ⟨['f'], [['(', 'u', ',', 'u', ')']]⟩), 5)]
        ⟨[(1, renderSig ⟨['f'], [['(', 'u', ',', 'u', ')']]⟩)], []⟩
        ⟨0, some 1, false⟩ = some 1 ∧
    mapGet [((0, specSlug ⟨['f'], [['(', 'u', ',', 'u', ')']]⟩), 5)]
        ((0 : EVMAddress), specSlug ⟨['f'], [['(', 'u', ',', 'u', ')']]⟩) = some 5 ∧
    (some 1 : Option Nat) ≠ some 5 := by
  refine ⟨by rfl, by rfl, by decide⟩

/-! ### Concrete scenario reachability -/

theorem freshId_new_1 : FreshId UncoveredBranchesMetadata.new 1 := by
  constructor
  · intro b s h
    simp [UncoveredBranchesMetadata.new, mapGet] at h
  · rfl

theorem freshId_scenarioLedger1_2 : FreshId scenarioLedger1 2 := by
  constructor
  · intro b s h
    have hm := mapGet_eq_some_mem _ _ _ h
    rw [show scenarioLedger1.branch_to_testcases = [((170, 10), [1])] by decide] at hm
    simp at hm
    rw [hm.2]
    decide
  · decide

theorem freshId_scenarioLedger2_3 : FreshId scenarioLedger2 3 := by
  constructor
  · intro b s h
    rw [show scenarioLedger2.branch_to_testcases = [] by decide] at h
    simp [mapGet] at h
  · decide

theorem reachable_scenarioLedger1 : Reachable scenarioLedger1 :=
  Reachable.step UncoveredBranchesMetadata.new 1 [(170, 10, true)] Reachable.init
    freshId_new_1

theorem reachable_scenarioLedger2 : Reachable scenarioLedger2 :=
  Reachable.step scenarioLedger1 2 [(170, 10, false)] reachable_scenarioLedger1
    freshId_scenarioLedger1_2

theorem reachable_scenarioLedger3 : Reachable scenarioLedger3 :=
  Reachable.step scenarioLedger2 3 [(170, 10, true)] reachable_scenarioLedger2
    freshId_scenarioLedger2_3

/-- Counterexample for claim C2 as stated: after the completing admission of
entry 2, its own uncovered count is 0 (the completing observation does not
increment the newly-uncovered counter) and its power is 32, not 1 and 48. -/
theorem scenario_e2_counterexample :
    countOf scenarioLedger2.testcase_to_uncovered_branches 2 = 0 ∧
    CorpusPowerABITestcaseScore.compute (some 1) scenarioLedger2 2 = 32 ∧
    ¬(countOf scenarioLedger2.testcase_to_uncovered_branches 2 = 1 ∧
      CorpusPowerABITestcaseScore.compute (some 1) scenarioLedger2 2 = 48) := by
  refine ⟨by decide, ?_, fun h => absurd h.1 (by decide)⟩
  unfold CorpusPowerABITestcaseScore.compute
  rw [show countOf scenarioLedger2.testcase_to_uncovered_branches 2 = 0 by decide]
  norm_num

/-- Claim C2 (amended): admitting entry 1 with only (0xAA, 10, taken) gives it
uncovered count 1, branch status `True`, credit set {1}; then admitting entry 2
with only (0xAA, 10, not taken) turns the status to `Both`, drops entry 1's
count from 1 to 0, removes the branch from the credit map, and leaves entry 2's
own count at 0; with weight 1 both powers are 32. -/
theorem scenario_end_to_end :
    countOf scenarioLedger1.testcase_to_uncovered_branches 1 = 1 ∧
    mapGet scenarioLedger1.branch_status (170, 10) = some BranchCoveredStatus.True ∧
    mapGet scenarioLedger1.branch_to_testcases (170, 10) = some [1] ∧
    mapGet scenarioLedger2.branch_status (170, 10) = some BranchCoveredStatus.Both ∧
    countOf scenarioLedger2.testcase_to_uncovered_branches 1 = 0 ∧
    mapGet scenarioLedger2.branch_to_testcases (170, 10) = none ∧
    countOf scenarioLedger2.testcase_to_uncovered_branches 2 = 0 ∧
    CorpusPowerABITestcaseScore.compute (some 1) scenarioLedger2 1 = 32 ∧
    CorpusPowerABITestcaseScore.compute (some 1) scenarioLedger2 2 = 32 := by
  refine ⟨by decide, by decide, by decide, by decide, by decide, by decide, by decide,
    ?_, ?_⟩
  · unfold CorpusPowerABITestcaseScore.compute
    rw [show countOf scenarioLedger2.testcase_to_uncovered_branches 1 = 0 by decide]
    norm_num
  · unfold CorpusPowerABITestcaseScore.compute
    rw [show countOf scenarioLedger2.testcase_to_uncovered_branches 2 = 0 by decide]
    norm_num

/-- Claim C1: the stated ledger invariant fails on the code.  The state after
admitting entries 1, 2, 3 as in the scenario is reachable with fresh ids, yet
branch (0xAA, 10) has status `Both` and still appears in `branch_to_testcases`
credited to entry 3, because re-observing a `Both` branch takes the
"not fully covered" path of `on_add` (merge returns `(Both, false)`). -/
theorem both_branch_recredited :
    Reachable scenarioLedger3 ∧
    mapGet scenarioLedger3.branch_status (170, 10) = some BranchCoveredStatus.Both ∧
    mapGet scenarioLedger3.branch_to_testcases (170, 10) = some [3] ∧
    countOf scenarioLedger3.testcase_to_uncovered_branches 3 = 1 :=
  ⟨reachable_scenarioLedger3, by decide, by decide, by decide⟩

/-- Claim C3: in every ledger state reachable by `on_add` admissions of fresh
ids, every entry credited to a branch still present in `branch_to_testcases`
has uncovered count at least 1 (so the unsigned decrement never underflows and
counts never go negative), and when an admission's event completes a branch,
every previously credited entry other than the admitted one has its count
decreased by exactly 1. -/
theorem on_add_no_underflow (m : UncoveredBranchesMetadata) (hr : Reachable m) :
    (∀ b s tc, mapGet m.branch_to_testcases b = some s → tc ∈ s →
      1 ≤ countOf m.testcase_to_uncovered_branches tc) ∧
    (∀ idx addr pc br st s tc, FreshId m idx →
      mapGet m.branch_status (addr, pc) = some st →
      (st.merge br).2 = true →
      mapGet m.branch_to_testcases (addr, pc) = some s →
      tc ∈ s → tc ≠ idx →
      countOf (on_add_branches m idx
          [(addr, pc, br)]).testcase_to_uncovered_branches tc + 1 =
        countOf m.testcase_to_uncovered_branches tc) := by
  obtain ⟨h1, h2, h3, h4⟩ := reachable_LedgerInv m hr
  have part1 : ∀ b s tc, mapGet m.branch_to_testcases b = some s → tc ∈ s →
      1 ≤ countOf m.testcase_to_uncovered_branches tc := by
    intro b s tc hg hm
    have hc := branchCredits_pos m.branch_to_testcases b s tc hg hm
    have := h4 tc
    omega
  refine ⟨part1, ?_⟩
  intro idx addr pc br st s tc _hF hst hupd hg hm htc
  have hsnod : s.Nodup := h3 (addr, pc) s hg
  have hpe : processEvents idx [(addr, pc, br)] m 0 [] =
      ((applyEvent m idx (addr, pc) br).1, 0 + (applyEvent m idx (addr, pc) br).2) := by
    simp [processEvents]
  have hae := applyEvent_some_updated m idx (addr, pc) br st hst hupd
  have hcounts : (on_add_branches m idx [(addr, pc, br)]).testcase_to_uncovered_branches =
      mapInsert (foldDec idx s m.testcase_to_uncovered_branches) idx 0 := by
    show mapInsert
        (processEvents idx [(addr, pc, br)] m 0 []).1.testcase_to_uncovered_branches idx
        (processEvents idx [(addr, pc, br)] m 0 []).2 = _
    rw [hpe]
    simp only [hae, hg]
    rfl
  rw [hcounts, countOf_mapInsert_ne _ _ _ _ htc, foldDec_countOf idx s _ tc hsnod,
    if_pos ⟨hm, htc⟩]
  have hge := part1 (addr, pc) s tc hg hm
  omega

/-- Witness for C3 at the concrete scenario state after admitting entry 1. -/
theorem on_add_no_underflow_witness :
    1 ≤ countOf scenarioLedger1.testcase_to_uncovered_branches 1 ∧
    countOf (on_add_branches scenarioLedger1 2
        [(170, 10, false)]).testcase_to_uncovered_branches 1 + 1 =
      countOf scenarioLedger1.testcase_to_uncovered_branches 1 := by
  have h := on_add_no_underflow scenarioLedger1 reachable_scenarioLedger1
  refine ⟨h.1 (170, 10) [1] 1 (by decide) (by decide), ?_⟩
  exact h.2 2 170 10 false BranchCoveredStatus.True [1] 1 freshId_scenarioLedger1_2
    (by decide) (by decide) (by decide) (by decide) (by decide)
